import Mathlib

/-!
Verification of the sleeper-scripts repository.

Shallow embedding of the four Python scripts:
* `src/weekly-high-score/sleeper_weekly_max_pf_allteams.py` (lineup optimizer),
* `src/weekly-high-score/topScorer.py` (weekly rank extraction),
* `src/standings/Standings.py` (standings accumulation),
* `src/kickers-analysis/Kickers.py` (field-goal distance buckets).

Python floats are modelled as rationals, Python `None` as `Option.none`,
dictionaries either as association lists in insertion order (where the key
set or iteration order matters) or as total functions (where only lookups
at known-present keys occur).
-/

namespace Sleeper

/-! ### Embedding of sleeper_weekly_max_pf_allteams.py -/

/-- Entry of the pool built by `build_roster_pool`: the `position` field is
already normalized there, the score coerced with `float(... or 0.0)`. -/
structure Player where
  player_id : String
  player_name : String
  position : String
  score : ℚ
deriving DecidableEq, Repr

/-- `POS_ALIAS = {"DST": "DEF", "D/ST": "DEF", "PK": "K"}` together with
`normalize_pos(pos) = POS_ALIAS.get(pos, pos)`. -/
def normalize_pos (pos : String) : String :=
  if pos = "DST" then "DEF"
  else if pos = "D/ST" then "DEF"
  else if pos = "PK" then "K"
  else pos

/-- `FIXED_REQUIRED = {"QB": 1, "RB": 2, "WR": 3, "TE": 1, "DEF": 1, "K": 1}`,
kept as an association list in the dict's insertion order. -/
def FIXED_REQUIRED : List (String × Nat) :=
  [("QB", 1), ("RB", 2), ("WR", 3), ("TE", 1), ("DEF", 1), ("K", 1)]

/-- Python's stable in-place `by_pos[pos].sort(key=lambda x: x["score"], reverse=True)`:
a stable merge sort into descending score order. -/
def sortByScoreDesc (l : List Player) : List Player :=
  l.mergeSort (fun a b => decide (b.score ≤ a.score))

/-- The group `by_pos.get(pos, [])` read by `select_fixed_best` at a key `pos`
of `required`: grouping the pool into `by_pos` preserves pool order inside
each group, so at a required key the group is the order-preserving filter of
the pool by that position.  (The source inserts only players whose position is
a `required` key, and reads groups only at `required` keys, so the insertion
guard is subsumed by the equality test against the key.) -/
def by_pos_get (players : List Player) (pos : String) : List Player :=
  players.filter (fun p => p.position == pos)

/-- Body of the `chosen` accumulation loop of `select_fixed_best`: per
`required` item `(pos, need)`, take the top `need` of the descending sort of
the pool's players at `pos`, tag each with `slot = pos` (the
`{**p, "slot": pos}` copy is modelled as the pair of the player and its
slot), and concatenate in the dict's iteration order. -/
def chosen_list (players : List Player) (required : List (String × Nat)) :
    List (Player × String) :=
  (required.map (fun kv =>
    ((sortByScoreDesc (by_pos_get players kv.1)).take kv.2).map (fun p => (p, kv.1)))).flatten

/-- `select_fixed_best(players, required)`: the chosen list together with
`total = sum(p["score"] for p in chosen)`. -/
def select_fixed_best (players : List Player) (required : List (String × Nat)) :
    List (Player × String) × ℚ :=
  (chosen_list players required, ((chosen_list players required).map (fun c => c.1.score)).sum)

/-- Total score of a plain list of players (used to state optimality). -/
def total_score (sel : List Player) : ℚ := (sel.map (fun p => p.score)).sum

lemma filter_map_pair (l : List Player) (q pos : String) :
    ((l.map (fun p => (p, q))).filter (fun c => c.2 == pos)) =
      if q = pos then l.map (fun p => (p, q)) else [] := by
  induction l with
  | nil => simp
  | cons p t ih =>
    by_cases h : q = pos <;> simp [List.filter_cons, h, ih]

lemma chosen_list_cons (players : List Player) (kv : String × Nat)
    (rest : List (String × Nat)) :
    chosen_list players (kv :: rest) =
      ((sortByScoreDesc (by_pos_get players kv.1)).take kv.2).map (fun p => (p, kv.1)) ++
        chosen_list players rest := by
  simp [chosen_list]

lemma chosen_filter_nil (players : List Player) (pos : String) :
    ∀ (required : List (String × Nat)), pos ∉ required.map Prod.fst →
      (chosen_list players required).filter (fun c => c.2 == pos) = [] := by
  intro required
  induction required with
  | nil => intro _; simp [chosen_list]
  | cons kv rest ih =>
    intro hpos
    rw [chosen_list_cons, List.filter_append]
    have h1 : kv.1 ≠ pos := by
      intro h; exact hpos (by simp [h])
    have h2 : pos ∉ rest.map Prod.fst := by
      intro h; exact hpos (by simp [h])
    rw [filter_map_pair, if_neg h1, ih h2]
    rfl

lemma chosen_filter_eq (players : List Player) :
    ∀ (required : List (String × Nat)), (required.map Prod.fst).Nodup →
      ∀ pn ∈ required,
        (chosen_list players required).filter (fun c => c.2 == pn.1) =
          ((sortByScoreDesc (by_pos_get players pn.1)).take pn.2).map (fun p => (p, pn.1)) := by
  intro required
  induction required with
  | nil => intro _ pn h; cases h
  | cons kv rest ih =>
    intro hnd pn hmem
    rw [List.map_cons] at hnd
    have hk : kv.1 ∉ rest.map Prod.fst := (List.nodup_cons.mp hnd).1
    have hrest : (rest.map Prod.fst).Nodup := (List.nodup_cons.mp hnd).2
    rw [chosen_list_cons, List.filter_append]
    rcases List.mem_cons.mp hmem with hmem | hmem
    · subst hmem
      rw [filter_map_pair, if_pos rfl, chosen_filter_nil players pn.1 rest hk,
        List.append_nil]
    · have hne : kv.1 ≠ pn.1 := by
        intro h
        exact hk (h ▸ List.mem_map_of_mem Prod.fst hmem)
      rw [filter_map_pair, if_neg hne, ih hrest pn hmem]
      rfl

/-- C2: for every pool and required-slot map (distinct keys, as in a Python
dict), the lineup returned by `select_fixed_best` contains at most
`required[pos]` players assigned to each position `pos`, and every returned
player's (normalized) position equals its assigned slot. -/
theorem C2_lineup_respects_slots (players : List Player) (required : List (String × Nat))
    (hnd : (required.map Prod.fst).Nodup) :
    (∀ pn ∈ required,
        ((select_fixed_best players required).1.filter (fun c => c.2 == pn.1)).length ≤ pn.2) ∧
    (∀ c ∈ (select_fixed_best players required).1, c.1.position = c.2) := by
  constructor
  · intro pn hmem
    show ((chosen_list players required).filter (fun c => c.2 == pn.1)).length ≤ pn.2
    rw [chosen_filter_eq players required hnd pn hmem]
    simp only [List.length_map]
    exact List.length_take_le pn.2 (sortByScoreDesc (by_pos_get players pn.1))
  · intro c hc
    simp only [select_fixed_best, chosen_list, List.mem_flatten, List.mem_map] at hc
    obtain ⟨seg, ⟨kv, hkv, hseg⟩, hcseg⟩ := hc
    subst hseg
    obtain ⟨p, hp, hpc⟩ := List.mem_map.mp hcseg
    have hmem : p ∈ sortByScoreDesc (by_pos_get players kv.1) := List.mem_of_mem_take hp
    have : p ∈ by_pos_get players kv.1 := by
      simpa [sortByScoreDesc] using hmem
    have hpos : p.position = kv.1 := by
      have := (List.mem_filter.mp this).2
      simpa using this
    rw [← hpc]
    simpa using hpos

/-- C3: for every pool with fewer eligible players at some required position
than that position's count, `select_fixed_best` returns exactly the available
players at that position (as a permutation: they are returned in sorted
order), without error and without padding; a position entirely absent from
the pool contributes zero players and zero score. -/
theorem C3_partial_lineup (players : List Player) (required : List (String × Nat))
    (hnd : (required.map Prod.fst).Nodup) (pn : String × Nat) (hmem : pn ∈ required)
    (hfew : (by_pos_get players pn.1).length < pn.2) :
    (((select_fixed_best players required).1.filter (fun c => c.2 == pn.1)).map Prod.fst).Perm
        (by_pos_get players pn.1) ∧
    (by_pos_get players pn.1 = [] →
      (select_fixed_best players required).1.filter (fun c => c.2 == pn.1) = [] ∧
      ((((select_fixed_best players required).1.filter (fun c => c.2 == pn.1)).map
          (fun c => c.1.score)).sum = 0)) := by
  have h : (chosen_list players required).filter (fun c => c.2 == pn.1) =
      ((sortByScoreDesc (by_pos_get players pn.1)).take pn.2).map (fun p => (p, pn.1)) :=
    chosen_filter_eq players required hnd pn hmem
  have htake : (sortByScoreDesc (by_pos_get players pn.1)).take pn.2 =
      sortByScoreDesc (by_pos_get players pn.1) := by
    apply List.take_of_length_le
    rw [sortByScoreDesc, List.length_mergeSort]
    omega
  constructor
  · show (((chosen_list players required).filter (fun c => c.2 == pn.1)).map Prod.fst).Perm
        (by_pos_get players pn.1)
    rw [h, htake, List.map_map]
    have hid : (Prod.fst ∘ fun p : Player => (p, pn.1)) = id := rfl
    rw [hid, List.map_id]
    exact List.mergeSort_perm (by_pos_get players pn.1) _
  · intro hnil
    have : (chosen_list players required).filter (fun c => c.2 == pn.1) = [] := by
      rw [h, htake, hnil]
      simp [sortByScoreDesc]
    exact ⟨this, by show ((((chosen_list players required).filter
      (fun c => c.2 == pn.1)).map (fun c => c.1.score)).sum = 0); rw [this]; rfl⟩

lemma take_succ_sum_le (a : ℚ) (ha : 0 ≤ a) :
    ∀ (t : List Player) (j : ℕ), (∀ p ∈ t, p.score ≤ a) →
      total_score (t.take (j + 1)) ≤ a + total_score (t.take j)
  | [], j, _ => by simp [total_score]; exact ha
  | b :: t, 0, hle => by
    simp only [List.take_succ_cons, List.take_zero, total_score, List.map_cons,
      List.map_nil, List.sum_cons, List.sum_nil, add_zero]
    exact hle b (List.mem_cons_self b t)
  | b :: t, j + 1, hle => by
    simp only [List.take_succ_cons, total_score, List.map_cons, List.sum_cons]
    have ih := take_succ_sum_le a ha t j (fun p hp => hle p (List.mem_cons_of_mem b hp))
    simp only [total_score] at ih
    linarith

lemma sublist_total_le_take {u l : List Player} (hu : u.Sublist l) :
    l.Pairwise (fun a b => b.score ≤ a.score) → (∀ p ∈ l, 0 ≤ p.score) →
    total_score u ≤ total_score (l.take u.length) := by
  induction hu with
  | slnil => intro _ _; simp [total_score]
  | @cons u t a h ih =>
    intro hsort hnn
    obtain ⟨ha, hsort'⟩ := List.pairwise_cons.mp hsort
    have hnn' : ∀ p ∈ t, 0 ≤ p.score := fun p hp => hnn p (List.mem_cons_of_mem a hp)
    have h1 := ih hsort' hnn'
    cases hul : u.length with
    | zero =>
      rw [List.length_eq_zero.mp hul]
      simp [total_score]
    | succ j =>
      rw [List.take_succ_cons]
      calc total_score u ≤ total_score (t.take (j + 1)) := hul ▸ h1
        _ ≤ a.score + total_score (t.take j) :=
            take_succ_sum_le a.score (hnn a (List.mem_cons_self a t)) t j ha
        _ = total_score (a :: t.take j) := by simp [total_score]
  | @cons₂ u t a h ih =>
    intro hsort hnn
    obtain ⟨_, hsort'⟩ := List.pairwise_cons.mp hsort
    have hnn' : ∀ p ∈ t, 0 ≤ p.score := fun p hp => hnn p (List.mem_cons_of_mem a hp)
    have h1 := ih hsort' hnn'
    simp only [List.length_cons, List.take_succ_cons, total_score, List.map_cons,
      List.sum_cons]
    simp only [total_score] at h1
    linarith

lemma sorted_sortByScoreDesc (l : List Player) :
    (sortByScoreDesc l).Pairwise (fun a b => b.score ≤ a.score) := by
  have h0 : (l.mergeSort (fun a b => decide (b.score ≤ a.score))).Pairwise
      (fun a b => (decide (b.score ≤ a.score) : Bool)) := by
    apply List.sorted_mergeSort
    · intro a b c hab hbc
      simp only [decide_eq_true_eq] at *
      exact le_trans hbc hab
    · intro a b
      simp only [Bool.or_eq_true, decide_eq_true_eq]
      exact le_total b.score a.score
  exact h0.imp (fun h => by simpa using h)

lemma total_take_succ_ge (l : List Player) (hnn : ∀ p ∈ l, 0 ≤ p.score) (n : ℕ) :
    total_score (l.take n) ≤ total_score (l.take (n + 1)) := by
  rw [List.take_succ, total_score, total_score, List.map_append, List.sum_append]
  have : 0 ≤ ((l[n]?.toList).map (fun p => p.score)).sum := by
    cases h : l[n]? with
    | none => simp
    | some a =>
      simp only [Option.toList_some, List.map_cons, List.map_nil, List.sum_cons,
        List.sum_nil, add_zero]
      exact hnn a (List.getElem?_mem h)
  linarith

lemma total_take_mono (l : List Player) (hnn : ∀ p ∈ l, 0 ≤ p.score) {j k : ℕ} (h : j ≤ k) :
    total_score (l.take j) ≤ total_score (l.take k) := by
  induction k with
  | zero => rw [Nat.le_zero.mp h]
  | succ k ih =>
    rcases Nat.le_succ_iff.mp h with h | h
    · exact le_trans (ih h) (total_take_succ_ge l hnn k)
    · rw [h]

lemma subperm_total_le_take (l : List Player) (hnn : ∀ p ∈ l, 0 ≤ p.score)
    (s : List Player) (hs : s.Subperm l) {k : ℕ} (hk : s.length ≤ k) :
    total_score s ≤ total_score ((sortByScoreDesc l).take k) := by
  have hperm : l.Perm (sortByScoreDesc l) := (List.mergeSort_perm l _).symm
  obtain ⟨u, hu_perm, hu_sub⟩ := hs.trans hperm.subperm
  have hnn' : ∀ p ∈ sortByScoreDesc l, 0 ≤ p.score := by
    intro p hp
    apply hnn
    simpa [sortByScoreDesc] using hp
  have h1 : total_score u ≤ total_score ((sortByScoreDesc l).take u.length) :=
    sublist_total_le_take hu_sub (sorted_sortByScoreDesc l) hnn'
  have h2 : total_score u = total_score s := by
    unfold total_score
    exact (hu_perm.map (fun p => p.score)).sum_eq
  have h3 : u.length = s.length := hu_perm.length_eq
  rw [h2, h3] at h1
  exact le_trans h1 (total_take_mono _ hnn' (le_trans (le_of_eq rfl) hk))

lemma total_partition :
    ∀ (keys : List String), keys.Nodup →
      ∀ (sel : List Player), (∀ p ∈ sel, p.position ∈ keys) →
        (keys.map (fun k => total_score (sel.filter (fun p => p.position == k)))).sum =
          total_score sel := by
  intro keys
  induction keys with
  | nil =>
    intro _ sel h
    cases sel with
    | nil => simp [total_score]
    | cons p t => exact absurd (h p (List.mem_cons_self p t)) (List.not_mem_nil _)
  | cons k ks ih =>
    intro hnd sel hsel
    have hk : k ∉ ks := (List.nodup_cons.mp hnd).1
    have hks : ks.Nodup := (List.nodup_cons.mp hnd).2
    rw [List.map_cons, List.sum_cons]
    have hmem' : ∀ p ∈ sel.filter (fun p => !(p.position == k)), p.position ∈ ks := by
      intro p hp
      have h1 := List.mem_filter.mp hp
      have h2 := hsel p h1.1
      rcases List.mem_cons.mp h2 with h | h
      · exfalso
        have := h1.2
        simp [h] at this
      · exact h
    have hih := ih hks (sel.filter (fun p => !(p.position == k))) hmem'
    have hfil : ∀ j ∈ ks,
        (sel.filter (fun p => !(p.position == k))).filter (fun p => p.position == j) =
          sel.filter (fun p => p.position == j) := by
      intro j hj
      have hjk : j ≠ k := fun h => hk (h ▸ hj)
      rw [List.filter_filter]
      apply List.filter_congr
      intro p _
      by_cases h : p.position = j
      · simp [h, hjk]
      · simp [h]
    have hmap : ks.map (fun j => total_score ((sel.filter (fun p => !(p.position == k))).filter
          (fun p => p.position == j))) =
        ks.map (fun j => total_score (sel.filter (fun p => p.position == j))) :=
      List.map_congr_left (fun j hj => by rw [hfil j hj])
    rw [hmap] at hih
    rw [hih]
    have hsplit := List.filter_append_perm (fun p => p.position == k) sel
    have := (hsplit.map (fun p : Player => p.score)).sum_eq
    unfold total_score
    rw [← this, List.map_append, List.sum_append]

lemma select_total_eq (players : List Player) (required : List (String × Nat)) :
    (select_fixed_best players required).2 =
      (required.map (fun kv =>
        total_score ((sortByScoreDesc (by_pos_get players kv.1)).take kv.2))).sum := by
  show ((chosen_list players required).map (fun c => c.1.score)).sum = _
  induction required with
  | nil => rfl
  | cons kv rest ih =>
    rw [chosen_list_cons, List.map_append, List.sum_append, ih, List.map_cons, List.sum_cons]
    congr 1
    rw [List.map_map]
    rfl

/-- C1: for every player pool (normalized positions, non-negative scores) and
every required-slot map (distinct keys, as in a Python dict), the total score
returned by `select_fixed_best` is at least the total score of any other
selection from the same pool (a sub-permutation of the pool) that respects
the same per-position counts, with each selected player eligible for a slot
of its own position. -/
theorem C1_greedy_optimal (players : List Player) (required : List (String × Nat))
    (hnn : ∀ p ∈ players, 0 ≤ p.score)
    (hnd : (required.map Prod.fst).Nodup)
    (sel : List Player)
    (hsub : sel.Subperm players)
    (helig : ∀ p ∈ sel, p.position ∈ required.map Prod.fst)
    (hcount : ∀ pn ∈ required, (sel.filter (fun p => p.position == pn.1)).length ≤ pn.2) :
    total_score sel ≤ (select_fixed_best players required).2 := by
  rw [select_total_eq]
  rw [← total_partition (required.map Prod.fst) hnd sel helig]
  rw [List.map_map]
  apply List.sum_le_sum
  intro pn hpn
  show total_score (sel.filter (fun p => p.position == pn.1)) ≤
    total_score ((sortByScoreDesc (by_pos_get players pn.1)).take pn.2)
  apply subperm_total_le_take
  · intro p hp
    exact hnn p (List.mem_filter.mp hp).1
  · exact hsub.filter _
  · exact hcount pn hpn

/-- C1 witness: the spec's own example pool (QB 20, RB 15, RB 10, RB 5 with
required QB 1, RB 2); the selection consisting of the single RB with score 5
totals 5 ≤ 45, the optimizer's total. -/
theorem C1_greedy_optimal_witness :
    total_score [⟨"4", "d", "RB", 5⟩] ≤
      (select_fixed_best
        [⟨"1", "a", "QB", 20⟩, ⟨"2", "b", "RB", 15⟩, ⟨"3", "c", "RB", 10⟩,
          ⟨"4", "d", "RB", 5⟩]
        [("QB", 1), ("RB", 2)]).2 :=
  C1_greedy_optimal
    [⟨"1", "a", "QB", 20⟩, ⟨"2", "b", "RB", 15⟩, ⟨"3", "c", "RB", 10⟩, ⟨"4", "d", "RB", 5⟩]
    [("QB", 1), ("RB", 2)] (by decide) (by decide)
    [⟨"4", "d", "RB", 5⟩] (by decide) (by decide) (by decide)

/-- C2 witness: at the spec's example pool and required map, the returned
lineup has at most 1 QB and at most 2 RBs, and each chosen player's position
equals its slot. -/
theorem C2_lineup_respects_slots_witness :
    (∀ pn ∈ [("QB", 1), ("RB", 2)],
        ((select_fixed_best
            [⟨"1", "a", "QB", 20⟩, ⟨"2", "b", "RB", 15⟩, ⟨"3", "c", "RB", 10⟩,
              ⟨"4", "d", "RB", 5⟩]
            [("QB", 1), ("RB", 2)]).1.filter (fun c => c.2 == pn.1)).length ≤ pn.2) ∧
    (∀ c ∈ (select_fixed_best
        [⟨"1", "a", "QB", 20⟩, ⟨"2", "b", "RB", 15⟩, ⟨"3", "c", "RB", 10⟩,
          ⟨"4", "d", "RB", 5⟩]
        [("QB", 1), ("RB", 2)]).1, c.1.position = c.2) :=
  C2_lineup_respects_slots
    [⟨"1", "a", "QB", 20⟩, ⟨"2", "b", "RB", 15⟩, ⟨"3", "c", "RB", 10⟩, ⟨"4", "d", "RB", 5⟩]
    [("QB", 1), ("RB", 2)] (by decide)

/-- C3 witness: a pool with one QB and no RB, with the required map QB 1,
RB 2: the RB slot gets exactly the zero available RBs and zero score. -/
theorem C3_partial_lineup_witness :
    ((((select_fixed_best [⟨"1", "a", "QB", 20⟩] [("QB", 1), ("RB", 2)]).1.filter
        (fun c => c.2 == "RB")).map Prod.fst).Perm
      (by_pos_get [⟨"1", "a", "QB", 20⟩] "RB")) ∧
    (by_pos_get [⟨"1", "a", "QB", 20⟩] "RB" = [] →
      (select_fixed_best [⟨"1", "a", "QB", 20⟩] [("QB", 1), ("RB", 2)]).1.filter
        (fun c => c.2 == "RB") = [] ∧
      ((((select_fixed_best [⟨"1", "a", "QB", 20⟩] [("QB", 1), ("RB", 2)]).1.filter
          (fun c => c.2 == "RB")).map (fun c => c.1.score)).sum = 0)) :=
  C3_partial_lineup [⟨"1", "a", "QB", 20⟩] [("QB", 1), ("RB", 2)] (by decide)
    ("RB", 2) (by decide) (by decide)

/-! ### Embedding of compute_required_from_league -/

/-- `ignore = {"BN", "IR", "TAXI"}`. -/
def ignore_list : List String := ["BN", "IR", "TAXI"]

/-- `allowed = set(FIXED_REQUIRED.keys())`. -/
def allowed : List String := FIXED_REQUIRED.map Prod.fst

/-- `counts[p] += 1` on a `defaultdict(int)`: update the entry in place when
the key is present (a Python dict keeps insertion order), else append it with
value 1. -/
def dd_incr : List (String × Nat) → String → List (String × Nat)
  | [], k => [(k, 1)]
  | kv :: m, k => if kv.1 = k then (kv.1, kv.2 + 1) :: m else kv :: dd_incr m k

/-- `counts.get(k, 0)` on the association list, read in insertion order. -/
def dd_get : List (String × Nat) → String → Nat
  | [], _ => 0
  | kv :: m, k => if kv.1 = k then kv.2 else dd_get m k

/-- `counts[k] = v`: update in place when present, else append. -/
def dict_set : List (String × Nat) → String → Nat → List (String × Nat)
  | [], k, v => [(k, v)]
  | kv :: m, k, v => if kv.1 = k then (kv.1, v) :: m else kv :: dict_set m k v

/-- Body of the first loop of `compute_required_from_league`: skip
`BN`/`IR`/`TAXI`, normalize, and count only the allowed fixed slots. -/
def counts_step (m : List (String × Nat)) (pos : String) : List (String × Nat) :=
  if pos ∈ ignore_list then m
  else if normalize_pos pos ∈ allowed then dd_incr m (normalize_pos pos) else m

/-- Body of the second loop of `compute_required_from_league`: for each fixed
item `(k, v)`, fall back to `v` when the league supplied no nonzero count. -/
def fallback_step (m : List (String × Nat)) (kv : String × Nat) : List (String × Nat) :=
  if dd_get m kv.1 = 0 then dict_set m kv.1 kv.2 else m

/-- `compute_required_from_league(league)` as a function of
`league.get("roster_positions") or []`. -/
def compute_required_from_league (rp : List String) : List (String × Nat) :=
  FIXED_REQUIRED.foldl fallback_step (rp.foldl counts_step [])

/-- Number of slots of `roster_positions` that normalize to `k`, ignoring the
`BN`/`IR`/`TAXI` entries (the count named by the spec's claim). -/
def matching_slots (rp : List String) (k : String) : Nat :=
  (rp.filter (fun pos => !(decide (pos ∈ ignore_list)) && (normalize_pos pos == k))).length

lemma dd_get_incr (m : List (String × Nat)) (k j : String) :
    dd_get (dd_incr m k) j = dd_get m j + if j = k then 1 else 0 := by
  induction m with
  | nil =>
    by_cases h : k = j
    · subst h; simp [dd_incr, dd_get]
    · simp [dd_incr, dd_get, h, Ne.symm h]
  | cons kv m ih =>
    by_cases h1 : kv.1 = k
    · by_cases h2 : kv.1 = j
      · have hjk : j = k := by rw [← h2, h1]
        simp [dd_incr, dd_get, h1, h2, hjk]
      · have hjk : j ≠ k := by rw [← h1]; exact fun h => h2 h.symm
        simp [dd_incr, dd_get, h1, h2, hjk, Ne.symm hjk]
    · by_cases h2 : kv.1 = j
      · have hjk : j ≠ k := by rw [← h2]; exact h1
        simp [dd_incr, dd_get, h1, h2, hjk]
      · simp [dd_incr, dd_get, h1, h2, ih]

lemma dd_incr_keys (m : List (String × Nat)) (k : String) :
    (dd_incr m k).map Prod.fst =
      if k ∈ m.map Prod.fst then m.map Prod.fst else m.map Prod.fst ++ [k] := by
  induction m with
  | nil => simp [dd_incr]
  | cons kv m ih =>
    by_cases h : kv.1 = k
    · simp [dd_incr, h]
    · simp only [dd_incr, if_neg h, List.map_cons, List.mem_cons]
      have : ¬ k = kv.1 := fun hh => h hh.symm
      by_cases hm : k ∈ m.map Prod.fst <;> simp [this, hm, ih]

lemma dd_incr_pos (m : List (String × Nat)) (k : String)
    (hpos : ∀ kv ∈ m, 0 < kv.2) : ∀ kv ∈ dd_incr m k, 0 < kv.2 := by
  induction m with
  | nil =>
    intro kv hkv
    simp only [dd_incr, List.mem_singleton] at hkv
    simp [hkv]
  | cons kv0 m ih =>
    intro kv hkv
    by_cases h : kv0.1 = k
    · simp only [dd_incr, if_pos h, List.mem_cons] at hkv
      rcases hkv with hkv | hkv
      · simp [hkv]
      · exact hpos kv (List.mem_cons_of_mem kv0 hkv)
    · simp only [dd_incr, if_neg h, List.mem_cons] at hkv
      rcases hkv with hkv | hkv
      · exact hkv ▸ hpos kv0 (List.mem_cons_self kv0 m)
      · exact ih (fun x hx => hpos x (List.mem_cons_of_mem kv0 hx)) kv hkv

lemma keys_cons_split (kv : String × Nat) (m : List (String × Nat)) (k : String)
    (h : k ∉ (kv :: m).map Prod.fst) : kv.1 ≠ k ∧ k ∉ m.map Prod.fst := by
  rw [List.map_cons] at h
  exact ⟨fun hh => h (hh ▸ List.mem_cons_self _ _),
    fun hh => h (List.mem_cons_of_mem _ hh)⟩

lemma dd_get_eq_zero_of_not_mem (m : List (String × Nat)) (k : String)
    (h : k ∉ m.map Prod.fst) : dd_get m k = 0 := by
  induction m with
  | nil => rfl
  | cons kv m ih =>
    obtain ⟨h1, h2⟩ := keys_cons_split kv m k h
    simp [dd_get, h1, ih h2]

lemma dd_get_pos_of_mem (m : List (String × Nat)) (hpos : ∀ kv ∈ m, 0 < kv.2)
    (k : String) (h : k ∈ m.map Prod.fst) : 0 < dd_get m k := by
  induction m with
  | nil => cases h
  | cons kv m ih =>
    by_cases h1 : kv.1 = k
    · simpa [dd_get, h1] using hpos kv (List.mem_cons_self kv m)
    · have h2 : k ∈ m.map Prod.fst := by
        rw [List.map_cons] at h
        rcases List.mem_cons.mp h with hh | hh
        · exact absurd hh.symm h1
        · exact hh
      simpa [dd_get, h1] using ih (fun x hx => hpos x (List.mem_cons_of_mem kv hx)) h2

lemma dd_get_of_mem (m : List (String × Nat)) (hnd : (m.map Prod.fst).Nodup)
    (kv : String × Nat) (h : kv ∈ m) : dd_get m kv.1 = kv.2 := by
  induction m with
  | nil => cases h
  | cons kv0 m ih =>
    rw [List.map_cons] at hnd
    have hk : kv0.1 ∉ m.map Prod.fst := (List.nodup_cons.mp hnd).1
    rcases List.mem_cons.mp h with h | h
    · subst h; simp [dd_get]
    · have h1 : kv0.1 ≠ kv.1 := by
        intro hh
        exact hk (hh ▸ List.mem_map_of_mem Prod.fst h)
      simp [dd_get, h1, ih (List.nodup_cons.mp hnd).2 h]

lemma dd_get_dict_set (m : List (String × Nat)) (k : String) (v : Nat) (j : String) :
    dd_get (dict_set m k v) j = if j = k then v else dd_get m j := by
  induction m with
  | nil =>
    by_cases h : k = j
    · subst h; simp [dict_set, dd_get]
    · simp [dict_set, dd_get, h, Ne.symm h]
  | cons kv m ih =>
    by_cases h1 : kv.1 = k
    · by_cases h2 : kv.1 = j
      · have hjk : j = k := by rw [← h2, h1]
        simp [dict_set, dd_get, h1, h2, hjk]
      · have hjk : j ≠ k := by rw [← h1]; exact fun h => h2 h.symm
        simp [dict_set, dd_get, h1, h2, hjk, Ne.symm hjk]
    · by_cases h2 : kv.1 = j
      · have hjk : ¬ j = k := by rw [← h2]; exact fun h => h1 h
        simp [dict_set, dd_get, h1, h2, hjk]
      · simp [dict_set, dd_get, h1, h2, ih]

lemma dict_set_of_not_mem (m : List (String × Nat)) (k : String) (v : Nat)
    (h : k ∉ m.map Prod.fst) : dict_set m k v = m ++ [(k, v)] := by
  induction m with
  | nil => rfl
  | cons kv m ih =>
    obtain ⟨h1, h2⟩ := keys_cons_split kv m k h
    simp [dict_set, h1, ih h2]

lemma counts_fold_spec :
    ∀ (rp : List String) (m : List (String × Nat)),
      (m.map Prod.fst).Nodup → (∀ kv ∈ m, kv.1 ∈ allowed) → (∀ kv ∈ m, 0 < kv.2) →
      ((rp.foldl counts_step m).map Prod.fst).Nodup ∧
      (∀ kv ∈ rp.foldl counts_step m, kv.1 ∈ allowed) ∧
      (∀ kv ∈ rp.foldl counts_step m, 0 < kv.2) ∧
      (∀ k ∈ allowed, dd_get (rp.foldl counts_step m) k = dd_get m k + matching_slots rp k) := by
  intro rp
  induction rp with
  | nil =>
    intro m h1 h2 h3
    exact ⟨h1, h2, h3, fun k _ => by simp [matching_slots]⟩
  | cons pos rp ih =>
    intro m h1 h2 h3
    rw [List.foldl_cons]
    by_cases hig : pos ∈ ignore_list
    · have hstep : counts_step m pos = m := by simp [counts_step, hig]
      rw [hstep]
      obtain ⟨g1, g2, g3, g4⟩ := ih m h1 h2 h3
      refine ⟨g1, g2, g3, fun k hk => ?_⟩
      rw [g4 k hk]
      congr 1
      simp [matching_slots, List.filter_cons, hig]
    · by_cases hal : normalize_pos pos ∈ allowed
      · have hstep : counts_step m pos = dd_incr m (normalize_pos pos) := by
          simp [counts_step, hig, hal]
        rw [hstep]
        have k1 : ((dd_incr m (normalize_pos pos)).map Prod.fst).Nodup := by
          rw [dd_incr_keys]
          by_cases hm : normalize_pos pos ∈ m.map Prod.fst
          · simpa [hm] using h1
          · simp only [hm, if_false]
            simp [List.nodup_append, h1, hm]
        have k2 : ∀ kv ∈ dd_incr m (normalize_pos pos), kv.1 ∈ allowed := by
          intro kv hkv
          have : kv.1 ∈ (dd_incr m (normalize_pos pos)).map Prod.fst :=
            List.mem_map_of_mem Prod.fst hkv
          rw [dd_incr_keys] at this
          by_cases hm : normalize_pos pos ∈ m.map Prod.fst
          · rw [if_pos hm] at this
            obtain ⟨kv0, hkv0, hkk⟩ := List.mem_map.mp this
            exact hkk ▸ h2 kv0 hkv0
          · rw [if_neg hm] at this
            rcases List.mem_append.mp this with hh | hh
            · obtain ⟨kv0, hkv0, hkk⟩ := List.mem_map.mp hh
              exact hkk ▸ h2 kv0 hkv0
            · rw [List.mem_singleton.mp hh]
              exact hal
        have k3 : ∀ kv ∈ dd_incr m (normalize_pos pos), 0 < kv.2 := dd_incr_pos m _ h3
        obtain ⟨g1, g2, g3, g4⟩ := ih (dd_incr m (normalize_pos pos)) k1 k2 k3
        refine ⟨g1, g2, g3, fun k hk => ?_⟩
        rw [g4 k hk, dd_get_incr]
        have hms : matching_slots (pos :: rp) k =
            (if normalize_pos pos = k then 1 else 0) + matching_slots rp k := by
          unfold matching_slots
          rw [List.filter_cons]
          by_cases hh : normalize_pos pos = k
          · rw [if_pos (by simp [hig, hh])]
            rw [if_pos hh, List.length_cons]
            omega
          · rw [if_neg (by simp [hig, hh])]
            rw [if_neg hh]
            omega
        rw [hms]
        have hite : (if k = normalize_pos pos then 1 else 0) =
            (if normalize_pos pos = k then 1 else 0) := by
          by_cases hh : k = normalize_pos pos
          · rw [if_pos hh, if_pos hh.symm]
          · rw [if_neg hh, if_neg (fun hkk => hh hkk.symm)]
        rw [hite]
        omega
      · have hstep : counts_step m pos = m := by simp [counts_step, hig, hal]
        rw [hstep]
        obtain ⟨g1, g2, g3, g4⟩ := ih m h1 h2 h3
        refine ⟨g1, g2, g3, fun k hk => ?_⟩
        rw [g4 k hk]
        congr 1
        have hne : ¬ (normalize_pos pos = k) := fun hh => hal (hh ▸ hk)
        simp [matching_slots, List.filter_cons, hig, hne]

lemma fallback_fold_spec :
    ∀ (fl : List (String × Nat)) (m : List (String × Nat)),
      (m.map Prod.fst).Nodup → (∀ kv ∈ m, 0 < kv.2) → (∀ kv ∈ fl, 0 < kv.2) →
      ((fl.foldl fallback_step m).map Prod.fst).Nodup ∧
      (∀ j, j ∈ (fl.foldl fallback_step m).map Prod.fst ↔
          j ∈ m.map Prod.fst ∨ j ∈ fl.map Prod.fst) ∧
      (∀ kv ∈ fl.foldl fallback_step m,
          kv ∈ m ∨ (kv ∈ fl ∧ dd_get m kv.1 = 0)) := by
  intro fl
  induction fl with
  | nil =>
    intro m h1 h2 _
    exact ⟨h1, fun j => by simp, fun kv hkv => Or.inl hkv⟩
  | cons kv0 fl ih =>
    intro m h1 h2 h3
    rw [List.foldl_cons]
    by_cases hz : dd_get m kv0.1 = 0
    · have habs : kv0.1 ∉ m.map Prod.fst := by
        intro hmem
        exact absurd hz (Nat.pos_iff_ne_zero.mp (dd_get_pos_of_mem m h2 kv0.1 hmem))
      have hstep : fallback_step m kv0 = m ++ [(kv0.1, kv0.2)] := by
        simp only [fallback_step, if_pos hz]
        exact dict_set_of_not_mem m kv0.1 kv0.2 habs
      have hstep' : fallback_step m kv0 = m ++ [kv0] := by rw [hstep]
      rw [hstep']
      have k1 : ((m ++ [kv0]).map Prod.fst).Nodup := by
        simp [List.nodup_append, h1, habs]
      have k2 : ∀ kv ∈ m ++ [kv0], 0 < kv.2 := by
        intro kv hkv
        rcases List.mem_append.mp hkv with hh | hh
        · exact h2 kv hh
        · rw [List.mem_singleton.mp hh]
          exact h3 kv0 (List.mem_cons_self kv0 fl)
      have k3 : ∀ kv ∈ fl, 0 < kv.2 := fun x hx => h3 x (List.mem_cons_of_mem kv0 hx)
      obtain ⟨g1, g2, g3⟩ := ih (m ++ [kv0]) k1 k2 k3
      refine ⟨g1, fun j => ?_, fun kv hkv => ?_⟩
      · rw [g2 j]
        simp only [List.map_append, List.mem_append, List.map_cons, List.map_nil,
          List.mem_singleton, List.mem_cons]
        tauto
      · rcases g3 kv hkv with hh | ⟨hfl, hget⟩
        · rcases List.mem_append.mp hh with hh | hh
          · exact Or.inl hh
          · have : kv = kv0 := List.mem_singleton.mp hh
            exact Or.inr ⟨this ▸ List.mem_cons_self kv0 fl, this ▸ hz⟩
        · have hds : dd_get (dict_set m kv0.1 kv0.2) kv.1 = 0 := by
            rw [dict_set_of_not_mem m kv0.1 kv0.2 habs]
            exact hget
          rw [dd_get_dict_set] at hds
          by_cases hk : kv.1 = kv0.1
          · rw [if_pos hk] at hds
            exact absurd hds (Nat.pos_iff_ne_zero.mp (h3 kv0 (List.mem_cons_self kv0 fl)))
          · rw [if_neg hk] at hds
            exact Or.inr ⟨List.mem_cons_of_mem kv0 hfl, hds⟩
    · have hstep : fallback_step m kv0 = m := by simp [fallback_step, hz]
      rw [hstep]
      have k3 : ∀ kv ∈ fl, 0 < kv.2 := fun x hx => h3 x (List.mem_cons_of_mem kv0 hx)
      obtain ⟨g1, g2, g3⟩ := ih m h1 h2 k3
      have hpresent : kv0.1 ∈ m.map Prod.fst := by
        by_contra hmem
        exact hz (dd_get_eq_zero_of_not_mem m kv0.1 hmem)
      refine ⟨g1, fun j => ?_, fun kv hkv => ?_⟩
      · rw [g2 j]
        simp only [List.map_cons, List.mem_cons]
        constructor
        · rintro (h | h)
          · exact Or.inl h
          · exact Or.inr (Or.inr h)
        · rintro (h | (h | h))
          · exact Or.inl h
          · exact Or.inl (h.symm ▸ hpresent)
          · exact Or.inr h
      · rcases g3 kv hkv with hh | ⟨hfl, hget⟩
        · exact Or.inl hh
        · exact Or.inr ⟨List.mem_cons_of_mem kv0 hfl, hget⟩

/-- C9: for every league `roster_positions` list, the required-slot map has
exactly the six keys QB, RB, WR, TE, DEF, K (as a permutation of that key
set), and each key's count is the number of matching normalized non-bench
slots when nonzero, else the fixed default for that position. -/
theorem C9_required_from_league (rp : List String) :
    (((compute_required_from_league rp).map Prod.fst).Perm
        ["QB", "RB", "WR", "TE", "DEF", "K"]) ∧
    (∀ kv ∈ compute_required_from_league rp,
      kv.2 = if matching_slots rp kv.1 = 0 then dd_get FIXED_REQUIRED kv.1
             else matching_slots rp kv.1) := by
  obtain ⟨hnd, hall, hpos, hget⟩ :=
    counts_fold_spec rp [] (by simp) (by intro kv h; cases h) (by intro kv h; cases h)
  have hget0 : ∀ k ∈ allowed, dd_get (rp.foldl counts_step []) k = matching_slots rp k := by
    intro k hk
    rw [hget k hk]
    simp [dd_get]
  have hfl : ∀ kv ∈ FIXED_REQUIRED, 0 < kv.2 := by decide
  obtain ⟨g1, g2, g3⟩ := fallback_fold_spec FIXED_REQUIRED (rp.foldl counts_step []) hnd hpos hfl
  constructor
  · rw [show compute_required_from_league rp =
      FIXED_REQUIRED.foldl fallback_step (rp.foldl counts_step []) from rfl]
    rw [List.perm_ext_iff_of_nodup g1 (by decide)]
    intro j
    rw [g2 j]
    constructor
    · rintro (h | h)
      · obtain ⟨kv, hkv, hj⟩ := List.mem_map.mp h
        exact hj ▸ hall kv hkv
      · exact h
    · intro h
      exact Or.inr h
  · intro kv hkv
    rcases g3 kv hkv with hh | ⟨hfix, hz⟩
    · have hkal : kv.1 ∈ allowed := hall kv hh
      have hv : dd_get (rp.foldl counts_step []) kv.1 = kv.2 :=
        dd_get_of_mem _ hnd kv hh
      have hm : matching_slots rp kv.1 = kv.2 := by rw [← hget0 kv.1 hkal, hv]
      have hzpos : 0 < kv.2 := hpos kv hh
      rw [← hm] at hzpos ⊢
      rw [if_neg (Nat.pos_iff_ne_zero.mp hzpos)]
    · have hkal : kv.1 ∈ allowed := List.mem_map_of_mem Prod.fst hfix
      have hm : matching_slots rp kv.1 = 0 := by rw [← hget0 kv.1 hkal]; exact hz
      rw [hm, if_pos rfl]
      exact (dd_get_of_mem FIXED_REQUIRED (by decide) kv hfix).symm

/-! ### Embedding of topScorer.py -/

/-- One matchup dict as read by `find_scores_by_position`: only its
`players_points` mapping (player id → weekly score) is consulted. -/
structure TMatchup where
  players_points : List (String × ℚ)
deriving DecidableEq, Repr

/-- `players.get(player_id, {}).get("position")`: the player directory is an
association list from id to an optional position string. -/
def db_position (players : List (String × Option String)) (pid : String) : Option String :=
  match players.find? (fun q => q.1 == pid) with
  | none => none
  | some q => q.2

/-- Accumulation of `position_scores` for one week: for each matchup, for
each `(player_id, score)` of `players_points`, keep the score when the
player's position equals the requested one (a missing position compares
unequal, as Python's `None == position` is false). -/
def position_scores (players : List (String × Option String)) (position : String)
    (matchups : List TMatchup) : List ℚ :=
  (matchups.map (fun m => (m.players_points.filter (fun ps =>
    match db_position players ps.1 with
    | some p => p == position
    | none => false)).map (fun ps => ps.2))).flatten

/-- One entry of the `weekly_scores` result list. -/
structure WeekEntry where
  week : ℕ
  highest_score : Option ℚ
  twelfth_highest_score : Option ℚ
deriving DecidableEq, Repr

/-- Per-week entry construction: when scores exist, sort them in descending
order (Python's stable `sort(reverse=True)`) and report `scores[0]` and
`scores[11]` (None when fewer than 12 entries); when no scores exist, report
both statistics as None. -/
def week_entry (week : ℕ) (scores : List ℚ) : WeekEntry :=
  if scores.isEmpty then ⟨week, none, none⟩
  else
    let sorted := scores.mergeSort (fun a b => decide (b ≤ a))
    ⟨week, sorted.head?, if 12 ≤ sorted.length then sorted[11]? else none⟩

/-- Body of the week loop of `find_scores_by_position`: a falsy fetch result
(`None` on non-200, or an empty matchup list) is skipped with a diagnostic;
otherwise one entry is appended. -/
def fsbp_step (fetch : ℕ → Option (List TMatchup))
    (players : List (String × Option String)) (position : String)
    (acc : List WeekEntry) (week : ℕ) : List WeekEntry :=
  match fetch week with
  | none => acc
  | some ms =>
      if ms.isEmpty then acc
      else acc ++ [week_entry week (position_scores players position ms)]

/-- `find_scores_by_position(league_id, players, start_week, end_week,
position)`, with the per-week matchup fetch abstracted as a function from
week number to the parsed response (`none` for a failed fetch).  The week
loop is Python's `range(start_week, end_week + 1)`. -/
def find_scores_by_position (fetch : ℕ → Option (List TMatchup))
    (players : List (String × Option String)) (start_week end_week : ℕ)
    (position : String) : List WeekEntry :=
  (List.range' start_week (end_week + 1 - start_week)).foldl
    (fsbp_step fetch players position) []

lemma sorted_mergeSortRat (l : List ℚ) :
    (l.mergeSort (fun a b => decide (b ≤ a))).Pairwise (fun a b => b ≤ a) := by
  have h0 : (l.mergeSort (fun a b => decide (b ≤ a))).Pairwise
      (fun a b => (decide (b ≤ a) : Bool)) := by
    apply List.sorted_mergeSort
    · intro a b c hab hbc
      simp only [decide_eq_true_eq] at *
      exact le_trans hbc hab
    · intro a b
      simp only [Bool.or_eq_true, decide_eq_true_eq]
      exact le_total b a
  exact h0.imp (fun h => by simpa using h)

/-- C5: for every nonempty list of scores at one position in one week, the
per-week entry reports the maximum of the scores as `highest_score` (the
first element of the descending sort), and when fewer than 12 entries exist
it reports the 12th-highest statistic as an absent value, not zero and not
an error. -/
theorem C5_rank_extraction (week : ℕ) (scores : List ℚ) (hne : scores ≠ []) :
    (∃ m, (week_entry week scores).highest_score = some m ∧ m ∈ scores ∧
        ∀ x ∈ scores, x ≤ m) ∧
    (scores.length < 12 → (week_entry week scores).twelfth_highest_score = none) := by
  have hemp : scores.isEmpty = false := by
    cases scores with
    | nil => exact absurd rfl hne
    | cons a t => rfl
  have hlen : (scores.mergeSort (fun a b => decide (b ≤ a))).length = scores.length :=
    List.length_mergeSort scores
  constructor
  · cases hsort : scores.mergeSort (fun a b => decide (b ≤ a)) with
    | nil =>
      exfalso
      apply hne
      have := hlen
      rw [hsort] at this
      exact List.length_eq_zero.mp this.symm
    | cons h t =>
      refine ⟨h, ?_, ?_, ?_⟩
      · simp [week_entry, hemp, hsort]
      · have : h ∈ scores.mergeSort (fun a b => decide (b ≤ a)) := by
          rw [hsort]; exact List.mem_cons_self h t
        simpa using this
      · intro x hx
        have hxs : x ∈ scores.mergeSort (fun a b => decide (b ≤ a)) := by
          simpa using hx
        rw [hsort] at hxs
        rcases List.mem_cons.mp hxs with hh | hh
        · exact le_of_eq hh
        · have hp := sorted_mergeSortRat scores
          rw [hsort] at hp
          exact (List.pairwise_cons.mp hp).1 x hh
  · intro hlt
    simp [week_entry, hemp]
    omega

/-- C5 witness: the spec's example, eight kicker scores [8,7,6,5,4,3,2,1]:
the highest is reported (it is 8, the maximum) and the 12th-highest is
absent. -/
theorem C5_rank_extraction_witness :
    (∃ m, (week_entry 1 [8, 7, 6, 5, 4, 3, 2, 1]).highest_score = some m ∧
        m ∈ ([8, 7, 6, 5, 4, 3, 2, 1] : List ℚ) ∧
        ∀ x ∈ ([8, 7, 6, 5, 4, 3, 2, 1] : List ℚ), x ≤ m) ∧
    (([8, 7, 6, 5, 4, 3, 2, 1] : List ℚ).length < 12 →
      (week_entry 1 [8, 7, 6, 5, 4, 3, 2, 1]).twelfth_highest_score = none) :=
  C5_rank_extraction 1 [8, 7, 6, 5, 4, 3, 2, 1] (by decide)

lemma week_entry_week (w : ℕ) (s : List ℚ) : (week_entry w s).week = w := by
  unfold week_entry
  split <;> rfl

lemma fsbp_step_mono (fetch : ℕ → Option (List TMatchup))
    (players : List (String × Option String)) (position : String)
    (acc : List WeekEntry) (w : ℕ) (x : WeekEntry) (hx : x ∈ acc) :
    x ∈ fsbp_step fetch players position acc w := by
  unfold fsbp_step
  cases fetch w with
  | none => exact hx
  | some ms =>
    by_cases h : ms.isEmpty <;> simp [h, hx]

lemma fsbp_fold_mono (fetch : ℕ → Option (List TMatchup))
    (players : List (String × Option String)) (position : String) :
    ∀ (weeks : List ℕ) (acc : List WeekEntry) (x : WeekEntry), x ∈ acc →
      x ∈ weeks.foldl (fsbp_step fetch players position) acc := by
  intro weeks
  induction weeks with
  | nil => intro acc x hx; exact hx
  | cons w ws ih =>
    intro acc x hx
    rw [List.foldl_cons]
    exact ih _ x (fsbp_step_mono fetch players position acc w x hx)

lemma fsbp_fold_map_week (fetch : ℕ → Option (List TMatchup))
    (players : List (String × Option String)) (position : String) :
    ∀ (weeks : List ℕ) (acc : List WeekEntry),
      ((weeks.foldl (fsbp_step fetch players position) acc).map (fun e => e.week)) =
        acc.map (fun e => e.week) ++ weeks.filter (fun w =>
          match fetch w with
          | none => false
          | some ms => !ms.isEmpty) := by
  intro weeks
  induction weeks with
  | nil => intro acc; simp
  | cons w ws ih =>
    intro acc
    rw [List.foldl_cons, List.filter_cons]
    cases hf : fetch w with
    | none =>
      have hstep : fsbp_step fetch players position acc w = acc := by
        simp [fsbp_step, hf]
      rw [hstep, ih acc]
      simp
    | some ms =>
      by_cases hms : ms.isEmpty
      · have hstep : fsbp_step fetch players position acc w = acc := by
          simp [fsbp_step, hf, hms]
        rw [hstep, ih acc]
        simp [hms]
      · have hstep : fsbp_step fetch players position acc w =
            acc ++ [week_entry w (position_scores players position ms)] := by
          simp [fsbp_step, hf, hms]
        rw [hstep, ih _]
        simp only [List.map_append, List.map_cons, List.map_nil, week_entry_week]
        rw [List.append_assoc]
        simp [hms]

lemma fsbp_fold_mem (fetch : ℕ → Option (List TMatchup))
    (players : List (String × Option String)) (position : String) :
    ∀ (weeks : List ℕ) (acc : List WeekEntry) (w : ℕ), w ∈ weeks →
      ∀ ms, fetch w = some ms → ms ≠ [] →
      week_entry w (position_scores players position ms) ∈
        weeks.foldl (fsbp_step fetch players position) acc := by
  intro weeks
  induction weeks with
  | nil => intro acc w hw; cases hw
  | cons w0 ws ih =>
    intro acc w hw ms hf hms
    rw [List.foldl_cons]
    rcases List.mem_cons.mp hw with hw | hw
    · subst hw
      apply fsbp_fold_mono
      have hmse : ms.isEmpty = false := by
        cases ms with
        | nil => exact absurd rfl hms
        | cons a t => rfl
      simp [fsbp_step, hf, hmse]
    · exact ih _ w hw ms hf hms

/-- C10 counterexample: with a fetch returning an empty matchup list (an
HTTP-successful response whose body is the empty JSON array) for week 1, the
returned entries do not cover the successfully fetched week 1: the result is
empty while the claim requires an entry for that week. -/
theorem C10_counterexample :
    ¬ (((find_scores_by_position (fun _ => some []) [] 1 1 "K").map (fun e => e.week)) =
      (List.range' 1 1).filter (fun w =>
        ((fun _ => some ([] : List TMatchup)) w).isSome)) := by
  decide

/-- C10 amended: a week whose fetch result is falsy (a failed fetch, or a
successful fetch with an empty matchup list) contributes no entry, a week
fetched with a nonempty matchup list but no scores at the requested position
contributes the `(week, None, None)` entry, and the returned entries cover
exactly the weeks fetched with a nonempty matchup list, in increasing week
order. -/
theorem C10_weeks_covered (fetch : ℕ → Option (List TMatchup))
    (players : List (String × Option String)) (start_week end_week : ℕ)
    (position : String) :
    (((find_scores_by_position fetch players start_week end_week position).map
        (fun e => e.week)) =
      (List.range' start_week (end_week + 1 - start_week)).filter (fun w =>
        match fetch w with
        | none => false
        | some ms => !ms.isEmpty)) ∧
    (∀ w ms, w ∈ List.range' start_week (end_week + 1 - start_week) →
      fetch w = some ms → ms ≠ [] →
      position_scores players position ms = [] →
      (⟨w, none, none⟩ : WeekEntry) ∈
        find_scores_by_position fetch players start_week end_week position) := by
  constructor
  · rw [find_scores_by_position, fsbp_fold_map_week]
    simp
  · intro w ms hw hf hms hsc
    have h := fsbp_fold_mem fetch players position
      (List.range' start_week (end_week + 1 - start_week)) [] w hw ms hf hms
    rw [hsc] at h
    exact h

/-- C10 amended witness: fetch succeeds for week 1 with one matchup whose
only player is absent from the directory, so week 1 has no kicker scores:
the result covers week 1 and carries the (1, None, None) entry. -/
theorem C10_weeks_covered_witness :
    (((find_scores_by_position (fun _ => some [⟨[("p1", 3)]⟩]) [] 1 1 "K").map
        (fun e => e.week)) =
      (List.range' 1 (1 + 1 - 1)).filter (fun w =>
        match (fun _ => some ([⟨[("p1", 3)]⟩] : List TMatchup)) w with
        | none => false
        | some ms => !ms.isEmpty)) ∧
    ((1 : ℕ) ∈ List.range' 1 (1 + 1 - 1) ∧
      (fun _ => some ([⟨[("p1", 3)]⟩] : List TMatchup)) 1 = some [⟨[("p1", 3)]⟩] ∧
      ([⟨[("p1", 3)]⟩] : List TMatchup) ≠ [] ∧
      position_scores [] "K" [⟨[("p1", 3)]⟩] = [] ∧
      (⟨1, none, none⟩ : WeekEntry) ∈
        find_scores_by_position (fun _ => some [⟨[("p1", 3)]⟩]) [] 1 1 "K") :=
  ⟨(C10_weeks_covered (fun _ => some [⟨[("p1", 3)]⟩]) [] 1 1 "K").1,
    by decide, rfl, by decide, by decide,
    (C10_weeks_covered (fun _ => some [⟨[("p1", 3)]⟩]) [] 1 1 "K").2 1 [⟨[("p1", 3)]⟩]
      (by decide) rfl (by decide) (by decide)⟩

/-! ### Embedding of Standings.py -/

/-- Per-roster standings counters. -/
structure Counters where
  wins : ℕ
  losses : ℕ
  ties : ℕ
  division_wins : ℕ
  division_losses : ℕ
  division_ties : ℕ
deriving DecidableEq, Repr

/-- Initial all-zero counters. -/
def Counters.zero : Counters := ⟨0, 0, 0, 0, 0, 0⟩

/-- One matchup dict as read by `process_matchups`: `roster_id`, `points`,
and the optional `matchup_id` (which the source uses as the opponent's
roster id). -/
structure SMatchup where
  roster_id : ℕ
  points : ℚ
  matchup_id : Option ℕ
deriving DecidableEq, Repr

/-- `next((m for m in matchups if m["roster_id"] == opponent_id), None)`
followed by `opponent_matchup["points"]`. -/
def findOpponentPoints (matchups : List SMatchup) (oid : ℕ) : Option ℚ :=
  (matchups.find? (fun m => m.roster_id == oid)).map (fun m => m.points)

/-- Pointwise update of the standings map.  The Python `standings` dict has
one all-zero entry per fetched roster and `standings[rid][field] += 1`
assumes `rid` is one of those keys; the map is modelled as a total function
on roster ids, which agrees with the dict on every run that does not raise
`KeyError` (all inputs used in the theorems below have their ids present). -/
def upd (st : ℕ → Counters) (rid : ℕ) (f : Counters → Counters) : ℕ → Counters :=
  fun i => if i = rid then f (st i) else st i

/-- Win/loss/tie recording of `process_matchups` for one matchup entry whose
opponent points were resolved: overall counters first, then division
counters when the two rosters share a division label. -/
def applyResult (divs : ℕ → String) (st : ℕ → Counters) (rid oid : ℕ)
    (points opp : ℚ) : ℕ → Counters :=
  let st1 :=
    if opp < points then
      upd (upd st rid (fun c => {c with wins := c.wins + 1})) oid
        (fun c => {c with losses := c.losses + 1})
    else if points < opp then
      upd (upd st rid (fun c => {c with losses := c.losses + 1})) oid
        (fun c => {c with wins := c.wins + 1})
    else
      upd (upd st rid (fun c => {c with ties := c.ties + 1})) oid
        (fun c => {c with ties := c.ties + 1})
  if divs rid = divs oid then
    if opp < points then
      upd (upd st1 rid (fun c => {c with division_wins := c.division_wins + 1})) oid
        (fun c => {c with division_losses := c.division_losses + 1})
    else if points < opp then
      upd (upd st1 rid (fun c => {c with division_losses := c.division_losses + 1})) oid
        (fun c => {c with division_wins := c.division_wins + 1})
    else
      upd (upd st1 rid (fun c => {c with division_ties := c.division_ties + 1})) oid
        (fun c => {c with division_ties := c.division_ties + 1})
  else st1

/-- Resolution of `opponent_points` for one matchup entry: the value of
`matchup.get("matchup_id")` is used as the opponent id; a falsy value
(absent, or 0) leaves the points unresolved; otherwise the first matchup
whose `roster_id` equals it supplies them. -/
def opponent_points (matchups : List SMatchup) (m : SMatchup) : Option ℚ :=
  match m.matchup_id with
  | none => none
  | some oid => if oid = 0 then none else findOpponentPoints matchups oid

/-- Body of the inner matchup loop of `process_matchups`: skip (with a
diagnostic print) when the opponent's points cannot be resolved, else record
the result. -/
def stepEntry (divs : ℕ → String) (matchups : List SMatchup) (st : ℕ → Counters)
    (m : SMatchup) : ℕ → Counters :=
  match m.matchup_id with
  | none => st
  | some oid =>
    if oid = 0 then st
    else
      match findOpponentPoints matchups oid with
      | none => st
      | some opp => applyResult divs st m.roster_id oid m.points opp

/-- Body of the week loop of `process_matchups`: a falsy matchups fetch
(`None` on a failed request, or an empty list) is skipped with a diagnostic,
else each matchup entry of the week is processed in order. -/
def stepWeek (divs : ℕ → String) (fetch : ℕ → Option (List SMatchup))
    (st : ℕ → Counters) (week : ℕ) : ℕ → Counters :=
  match fetch week with
  | none => st
  | some ms => if ms.isEmpty then st else ms.foldl (stepEntry divs ms) st

/-- `process_matchups(league_id, max_week)`: fold the week loop over
`range(1, max_week + 1)` starting from all-zero counters; the roster
divisions are abstracted as a function from roster id to the division label
`settings.get("division", "Unknown")`, and the per-week matchups fetch as a
function from week to the parsed response. -/
def process_matchups (divs : ℕ → String) (fetch : ℕ → Option (List SMatchup))
    (max_week : ℕ) : ℕ → Counters :=
  (List.range' 1 max_week).foldl (stepWeek divs fetch) (fun _ => Counters.zero)

lemma foldl_filter_of_id {α β : Type} (f : β → α → β) (p : α → Bool)
    (hf : ∀ b a, p a = false → f b a = b) :
    ∀ (l : List α) (b : β), l.foldl f b = (l.filter p).foldl f b := by
  intro l
  induction l with
  | nil => intro b; rfl
  | cons a l ih =>
    intro b
    rw [List.foldl_cons, List.filter_cons]
    by_cases h : p a = true
    · rw [if_pos h, List.foldl_cons, ih]
    · have h' : p a = false := by
        cases hpa : p a
        · rfl
        · exact absurd hpa h
      rw [hf b a h', if_neg (by simp [h']), ih]

/-- C4: concrete run exhibiting the asymmetry of standings accumulation.
One two-sided week-1 matchup between rosters 1 (10 points) and 2 (7 points),
both carrying the Sleeper grouping id `matchup_id = 2`: the code records a
win for roster 1 and a loss for roster 2 while processing roster 1's entry,
and then a double self-tie for roster 2 while processing roster 2's entry
(whose `matchup_id` resolves back to roster 2 itself), so the pair gets both
a win/loss and ties, and roster 2 ends with wins+losses+ties = 3 after
participating in a single matchup. -/
theorem C4_standings_asymmetric :
    (process_matchups (fun _ => "East")
        (fun w => if w = 1 then some [⟨1, 10, some 2⟩, ⟨2, 7, some 2⟩] else none) 1) 1 =
      ⟨1, 0, 0, 1, 0, 0⟩ ∧
    (process_matchups (fun _ => "East")
        (fun w => if w = 1 then some [⟨1, 10, some 2⟩, ⟨2, 7, some 2⟩] else none) 1) 2 =
      ⟨0, 1, 2, 0, 1, 2⟩ := by
  decide

/-- C7: a per-unit failure is skipped and leaves the standings unchanged:
a week whose matchup fetch fails does not change the standings map, a
matchup entry whose opponent's points cannot be resolved does not change the
standings map, and the whole run equals the run over only the weeks whose
fetch yielded a truthy matchup list (processing continues with the remaining
units). -/
theorem C7_per_unit_failure (divs : ℕ → String)
    (fetch : ℕ → Option (List SMatchup)) (max_week : ℕ) :
    (∀ (st : ℕ → Counters) (week : ℕ), fetch week = none →
      stepWeek divs fetch st week = st) ∧
    (∀ (st : ℕ → Counters) (ms : List SMatchup) (m : SMatchup),
      opponent_points ms m = none → stepEntry divs ms st m = st) ∧
    (process_matchups divs fetch max_week =
      ((List.range' 1 max_week).filter (fun w =>
        match fetch w with
        | none => false
        | some ms => !ms.isEmpty)).foldl (stepWeek divs fetch) (fun _ => Counters.zero)) := by
  refine ⟨?_, ?_, ?_⟩
  · intro st week h
    simp [stepWeek, h]
  · intro st ms m h
    unfold stepEntry
    unfold opponent_points at h
    cases hmi : m.matchup_id with
    | none => rfl
    | some oid =>
      rw [hmi] at h
      dsimp only at h ⊢
      by_cases h0 : oid = 0
      · rw [if_pos h0]
      · rw [if_neg h0] at h
        rw [if_neg h0, h]
  · apply foldl_filter_of_id
    intro st w hw
    unfold stepWeek
    cases hf : fetch w with
    | none => rfl
    | some ms =>
      rw [hf] at hw
      simp only [Bool.not_eq_false'] at hw
      dsimp only
      rw [if_pos hw]

/-- C7 witness: week 1's fetch fails (`None`) and a matchup entry carries no
`matchup_id`: both skips leave the all-zero standings unchanged, and a
3-week run over an always-failing fetch equals the run over the empty list
of successfully fetched weeks. -/
theorem C7_per_unit_failure_witness :
    (stepWeek (fun _ => "Unknown") (fun _ => none) (fun _ => Counters.zero) 1 =
      (fun _ => Counters.zero)) ∧
    (stepEntry (fun _ => "Unknown") [] (fun _ => Counters.zero) ⟨1, 10, none⟩ =
      (fun _ => Counters.zero)) ∧
    (process_matchups (fun _ => "Unknown") (fun _ => none) 3 =
      ((List.range' 1 3).filter (fun w =>
        match (fun _ => (none : Option (List SMatchup))) w with
        | none => false
        | some ms => !ms.isEmpty)).foldl
        (stepWeek (fun _ => "Unknown") (fun _ => none)) (fun _ => Counters.zero)) :=
  ⟨(C7_per_unit_failure (fun _ => "Unknown") (fun _ => none) 3).1
      (fun _ => Counters.zero) 1 rfl,
    (C7_per_unit_failure (fun _ => "Unknown") (fun _ => none) 3).2.1
      (fun _ => Counters.zero) [] ⟨1, 10, none⟩ rfl,
    (C7_per_unit_failure (fun _ => "Unknown") (fun _ => none) 3).2.2⟩

/-! ### Embedding of Kickers.py -/

/-- One row of the filtered play-by-play data (`play_type == "field_goal"`):
an attempt with its `kick_distance` (integer yards) and
`field_goal_result`. -/
structure FGAttempt where
  play_id : ℕ
  kick_distance : ℤ
  field_goal_result : String
deriving DecidableEq, Repr

/-- `bins = [0, 29, 39, 49, 54, 59, 99]`. -/
def bins : List ℤ := [0, 29, 39, 49, 54, 59, 99]

/-- `labels = ["<30", "30-39", "40-49", "50-54", "55-59", "60+"]`. -/
def labels : List String := ["<30", "30-39", "40-49", "50-54", "55-59", "60+"]

/-- `pd.cut(x, bins=bs, labels=ls, right=False)`: assign the label of the
half-open interval `[bs[i], bs[i+1])` containing the value, or `none` (NaN)
when no interval contains it. -/
def cut (bs : List ℤ) (ls : List String) (v : ℤ) : Option String :=
  ((bs.zip bs.tail).zip ls).findSome? (fun bl =>
    if bl.1.1 ≤ v ∧ v < bl.1.2 then some bl.2 else none)

/-- One row of `fg_summary`. -/
structure FGRow where
  distance_bucket : String
  attempts : ℕ
  makes : ℕ
  success_rate : Option ℚ
deriving DecidableEq, Repr

/-- `analyze_field_goal_distances`: group the attempts by bucket category
(the pandas groupby over the categorical column keeps all six labels,
including empty buckets), count rows per bucket (`attempts`) and rows with
`field_goal_result == "made"` (`makes`), and attach
`makes / attempts * 100`; the `0/0` float NaN of an empty bucket is
modelled as an absent rate. -/
def analyze_field_goal_distances (field_goals : List FGAttempt) : List FGRow :=
  labels.map (fun lab =>
    { distance_bucket := lab,
      attempts := (field_goals.filter (fun fg =>
        cut bins labels fg.kick_distance == some lab)).length,
      makes := ((field_goals.filter (fun fg =>
        cut bins labels fg.kick_distance == some lab)).filter
          (fun fg => fg.field_goal_result == "made")).length,
      success_rate :=
        if (field_goals.filter (fun fg =>
            cut bins labels fg.kick_distance == some lab)).length = 0 then none
        else
          some ((((field_goals.filter (fun fg =>
              cut bins labels fg.kick_distance == some lab)).filter
                (fun fg => fg.field_goal_result == "made")).length : ℚ) /
            ((field_goals.filter (fun fg =>
              cut bins labels fg.kick_distance == some lab)).length : ℚ) * 100) })

/-- C6: the bucketing contradicts the claimed bucket contents.  With
`right=False` the code's bins make the second bucket the interval
`[29, 39)`, so a 29-yard attempt is assigned to "30-39" although the claim
(and the code's own labels) place every distance below 30 in "<30"; and a
99-yard attempt falls outside every bucket, so the buckets do not partition
the domain of attempt distances. -/
theorem C6_bucket_off_by_one :
    cut bins labels 29 = some "30-39" ∧ cut bins labels 99 = none := by
  decide

/-- C8: for every bucket row of the field-goal summary, the success rate is
makes divided by attempts times 100 whenever the bucket has attempts, and an
absent value (the float NaN of 0/0), not zero, when it has none. -/
theorem C8_success_rate (field_goals : List FGAttempt) :
    ∀ row ∈ analyze_field_goal_distances field_goals,
      (row.attempts ≠ 0 →
        row.success_rate = some ((row.makes : ℚ) / (row.attempts : ℚ) * 100)) ∧
      (row.attempts = 0 → row.success_rate = none) := by
  intro row hrow
  obtain ⟨lab, hlabmem, hlab⟩ := List.mem_map.mp hrow
  constructor
  · intro h
    rw [← hlab] at h ⊢
    dsimp only at h ⊢
    rw [if_neg h]
  · intro h
    rw [← hlab] at h ⊢
    dsimp only at h ⊢
    rw [if_pos h]

/-- C8 witness: the "30-39" row of the summary of a single made 30-yard
attempt (one attempt, one make) carries the makes/attempts rate, and the
"<30" row of an empty summary keeps an absent rate. -/
theorem C8_success_rate_witness :
    ((((analyze_field_goal_distances [⟨1, 30, "made"⟩]).get ⟨1, by decide⟩).attempts ≠ 0 →
      ((analyze_field_goal_distances [⟨1, 30, "made"⟩]).get ⟨1, by decide⟩).success_rate =
        some ((((analyze_field_goal_distances [⟨1, 30, "made"⟩]).get
            ⟨1, by decide⟩).makes : ℚ) /
          (((analyze_field_goal_distances [⟨1, 30, "made"⟩]).get
            ⟨1, by decide⟩).attempts : ℚ) * 100)) ∧
    (((analyze_field_goal_distances [⟨1, 30, "made"⟩]).get ⟨1, by decide⟩).attempts = 0 →
      ((analyze_field_goal_distances [⟨1, 30, "made"⟩]).get
        ⟨1, by decide⟩).success_rate = none)) ∧
    (((⟨"<30", 0, 0, none⟩ : FGRow).attempts ≠ 0 →
      (⟨"<30", 0, 0, none⟩ : FGRow).success_rate =
        some (((⟨"<30", 0, 0, none⟩ : FGRow).makes : ℚ) /
          ((⟨"<30", 0, 0, none⟩ : FGRow).attempts : ℚ) * 100)) ∧
    ((⟨"<30", 0, 0, none⟩ : FGRow).attempts = 0 →
      (⟨"<30", 0, 0, none⟩ : FGRow).success_rate = none)) :=
  ⟨C8_success_rate [⟨1, 30, "made"⟩]
      ((analyze_field_goal_distances [⟨1, 30, "made"⟩]).get ⟨1, by decide⟩)
      (List.get_mem _ _ _),
    C8_success_rate [] ⟨"<30", 0, 0, none⟩ (by decide)⟩

end Sleeper

